import Mathlib

/-!
Verification development for the LRU filesystem reclaimer (`src/main.rs`).

The program walks a directory tree, keeps a `BinaryHeap<FileInfo>` of
eviction candidates ordered by access time (most recently accessed on top),
then re-probes free space, prunes the heap, and deletes the remaining
candidates.  Everything below is a shallow embedding of `fn main`'s loop
bodies: timestamps become `Int`, `u64` byte counts become `Nat`, `PathBuf`
becomes an opaque `Nat` identifier, and each `unwrap` that can panic is
modelled by an `Option` result (`none` = the process aborts by panic).
-/

namespace LruReclaim

/-- Metadata of one scanned file, mirroring `struct FileInfo`:
`accessed : DateTime<Local>` becomes an `Int` timestamp, `size : u64`
becomes `Nat`, `path : PathBuf` becomes an opaque `Nat` identifier.
The source's `Ord` instance compares only `accessed`. -/
structure FileInfo where
  accessed : Int
  size : Nat
  path : Nat
  deriving DecidableEq, Repr

/-- One event seen by the scan loop of `fn main`:
`walkErr` is a walkdir error dropped by `filter_map(|entry| entry.ok())`;
`metaErr` is an entry whose `entry.metadata()` returned `Err`;
`item is_file accessed size path` is an entry with readable metadata, where
`accessed = none` models `metadata.accessed()` returning `Err` (the source
calls `.unwrap()` on it). -/
inductive Entry where
  | walkErr : Entry
  | metaErr : Entry
  | item (is_file : Bool) (accessed : Option Int) (size : Nat) (path : Nat) : Entry
  deriving DecidableEq, Repr

/-- State of the scan loop: the candidate heap `files_to_delete` (modelled
as a list sorted by `accessed` descending, head = `peek()` = most recently
accessed member) together with the running `aggregate_heap_file_size`. -/
structure SelState where
  files_to_delete : List FileInfo
  aggregate_heap_file_size : Nat
  deriving DecidableEq, Repr

/-- `BinaryHeap::push`: insert keeping the list sorted by `accessed`
descending, so the head stays the most recently accessed element. -/
def heapPush (f : FileInfo) : List FileInfo → List FileInfo
  | [] => [f]
  | g :: gs => if g.accessed ≤ f.accessed then f :: g :: gs else g :: heapPush f gs

/-- Total byte size of a list of files (what `aggregate_heap_file_size`
is meant to track). -/
def heapSize : List FileInfo → Nat
  | [] => 0
  | f :: rest => f.size + heapSize rest

/-- The inner `while` loop of the scan:
`while aggregate_heap_file_size - files_to_delete.peek().unwrap().size > max_n_bytes_to_delete`
pop the most recently accessed file and subtract its size.  `none` models
the `peek().unwrap()` panic on an empty heap. -/
def evict_loop (max_n_bytes_to_delete : Nat) :
    List FileInfo → Nat → Option (List FileInfo × Nat)
  | [], _ => none
  | f :: rest, agg =>
    if agg - f.size > max_n_bytes_to_delete then
      evict_loop max_n_bytes_to_delete rest (agg - f.size)
    else
      some (f :: rest, agg)

/-- The admission body of the scan loop: build the `FileInfo`, add its size
to the aggregate, `push` it, then run the post-push eviction `while` loop. -/
def admit_file (max_n_bytes_to_delete : Nat) (st : SelState) (file : FileInfo) :
    Option SelState :=
  (evict_loop max_n_bytes_to_delete (heapPush file st.files_to_delete)
      (st.aggregate_heap_file_size + file.size)).map fun p => ⟨p.1, p.2⟩

/-- One iteration of the `for entry in WalkDir...` loop.  Walk errors and
metadata errors are skipped; for a regular file the source first evaluates
`metadata.accessed().unwrap()` (panic = `none` when the access time is
unreadable), then tests
`accessed < older_than_time && (aggregate_heap_file_size < max_n_bytes_to_delete || accessed <= files_to_delete.peek().unwrap().accessed)`
with Rust's short-circuit semantics (the `peek().unwrap()` is only reached
when the first disjunct fails, and panics on an empty heap). -/
def scan_step (older_than_time : Int) (max_n_bytes_to_delete : Nat)
    (st : SelState) : Entry → Option SelState
  | .walkErr => some st
  | .metaErr => some st
  | .item false _ _ _ => some st
  | .item true none _ _ => none
  | .item true (some a) size path =>
    if a < older_than_time then
      if st.aggregate_heap_file_size < max_n_bytes_to_delete then
        admit_file max_n_bytes_to_delete st ⟨a, size, path⟩
      else
        match st.files_to_delete.head? with
        | none => none
        | some top =>
          if a ≤ top.accessed then
            admit_file max_n_bytes_to_delete st ⟨a, size, path⟩
          else
            some st
    else
      some st

/-- The whole scan loop over the stream of directory entries. -/
def scan (older_than_time : Int) (max_n_bytes_to_delete : Nat) :
    SelState → List Entry → Option SelState
  | st, [] => some st
  | st, e :: es =>
    match scan_step older_than_time max_n_bytes_to_delete st e with
    | none => none
    | some st2 => scan older_than_time max_n_bytes_to_delete st2 es

/-- Candidate-set states passed through by the eviction `while` loop: the
state after each individual pop. -/
def evict_states (max_n_bytes_to_delete : Nat) :
    List FileInfo → Nat → List SelState
  | [], _ => []
  | f :: rest, agg =>
    if agg - f.size > max_n_bytes_to_delete then
      ⟨rest, agg - f.size⟩ :: evict_states max_n_bytes_to_delete rest (agg - f.size)
    else
      []

/-- Candidate-set states passed through by one admission: the state right
after the `push` (before the eviction loop runs), then the state after each
pop of the eviction loop. -/
def admit_states (max_n_bytes_to_delete : Nat) (st : SelState) (file : FileInfo) :
    List SelState :=
  let pushed : SelState :=
    ⟨heapPush file st.files_to_delete, st.aggregate_heap_file_size + file.size⟩
  pushed :: evict_states max_n_bytes_to_delete pushed.files_to_delete
    pushed.aggregate_heap_file_size

/-- Intermediate candidate-set states produced while processing one entry
(empty when the entry is skipped). -/
def scan_step_states (older_than_time : Int) (max_n_bytes_to_delete : Nat)
    (st : SelState) : Entry → List SelState
  | .walkErr => []
  | .metaErr => []
  | .item false _ _ _ => []
  | .item true none _ _ => []
  | .item true (some a) size path =>
    if a < older_than_time then
      if st.aggregate_heap_file_size < max_n_bytes_to_delete then
        admit_states max_n_bytes_to_delete st ⟨a, size, path⟩
      else
        match st.files_to_delete.head? with
        | none => []
        | some top =>
          if a ≤ top.accessed then
            admit_states max_n_bytes_to_delete st ⟨a, size, path⟩
          else
            []
    else
      []

/-- Every intermediate candidate-set state (after each insertion and after
each individual eviction) along a whole scan. -/
def scan_states (older_than_time : Int) (max_n_bytes_to_delete : Nat) :
    SelState → List Entry → List SelState
  | _, [] => []
  | st, e :: es =>
    scan_step_states older_than_time max_n_bytes_to_delete st e ++
      match scan_step older_than_time max_n_bytes_to_delete st e with
      | none => []
      | some st2 => scan_states older_than_time max_n_bytes_to_delete st2 es

/-- Two's-complement wrap of an integer into the `i64` range, used to model
Rust's `as i64` reinterpretation of a `u64` and wrapping `i64` arithmetic. -/
def wrap64 (z : Int) : Int := (z + 2 ^ 63) % 2 ^ 64 - 2 ^ 63

/-- The deficit recomputation after the second space probe:
`let n_bytes_to_delete = args.target_available_space as i64 - fs2::available_space(&args.path).unwrap() as i64;`
Both `u64` operands are reinterpreted as `i64` and subtracted with `i64`
(wrapping) semantics. -/
def n_bytes_to_delete (target_available_space avail2 : Nat) : Int :=
  wrap64 (wrap64 target_available_space - wrap64 avail2)

/-- The reconciliation `while let Some(file) = files_to_delete.peek()` loop:
pop the most recently accessed file while
`aggregate_heap_file_size - file.size > n_bytes_to_delete as u64`,
otherwise break. -/
def reconcile (n_bytes : Nat) : List FileInfo → Nat → List FileInfo × Nat
  | [], agg => ([], agg)
  | file :: rest, agg =>
    if agg - file.size > n_bytes then
      reconcile n_bytes rest (agg - file.size)
    else
      (file :: rest, agg)

/-- The candidate files that reach the final deletion drain: when the
recomputed deficit is positive the heap is pruned by `reconcile` and then
drained; otherwise the `if n_bytes_to_delete > 0` block is skipped, the
heap is dropped, and nothing at all is deleted. -/
def final_candidates (target_available_space avail2 : Nat) (st : SelState) :
    List FileInfo :=
  if 0 < n_bytes_to_delete target_available_space avail2 then
    (reconcile (n_bytes_to_delete target_available_space avail2).toNat
      st.files_to_delete st.aggregate_heap_file_size).1
  else
    []

/-- The final `while let Some(file) = files_to_delete.pop()` drain.
`remove_ok p` models whether `remove_file` on path `p` returns `Ok`.
Returns the final `n_bytes_deleted` accumulator together with the list of
paths on which `remove_file` was attempted (in drain order).  Mirrors the
source exactly: in dry-run every drained file is counted and no removal is
attempted; in live mode `remove_file(&file.path).is_ok() && args.verbose`
is evaluated (so removal is always attempted first) and the size is added
only when both hold. -/
def drain_exec (dry_run verbose : Bool) (remove_ok : Nat → Bool) :
    List FileInfo → Nat → Nat × List Nat
  | [], n_bytes_deleted => (n_bytes_deleted, [])
  | file :: rest, n_bytes_deleted =>
    if dry_run then
      drain_exec dry_run verbose remove_ok rest (n_bytes_deleted + file.size)
    else
      let attempted_ok := remove_ok file.path
      let acc2 :=
        if attempted_ok && verbose then n_bytes_deleted + file.size
        else n_bytes_deleted
      let r := drain_exec dry_run verbose remove_ok rest acc2
      (r.1, file.path :: r.2)

/-- Admission condition of the scan loop as a total predicate (the source
evaluates its second disjunct through `peek().unwrap()`, which is reachable
only when the heap is provably non-empty; on an empty heap this predicate
is simply false). -/
def admits (max_n_bytes_to_delete : Nat) (st : SelState) (a : Int) : Bool :=
  decide (st.aggregate_heap_file_size < max_n_bytes_to_delete) ||
    match st.files_to_delete.head? with
    | none => false
    | some top => decide (a ≤ top.accessed)

/-- Eligibility of an entry: a regular file with readable access time that
is older than the age floor. -/
def eligible (older_than_time : Int) : Entry → Bool
  | .item true (some a) _ _ => decide (a < older_than_time)
  | _ => false

/-- Readability of an entry's access time: false exactly for a regular file
on which `metadata.accessed().unwrap()` would panic. -/
def accessed_readable : Entry → Bool
  | .item true none _ _ => false
  | _ => true

/-- Sortedness by `accessed` descending, the representation invariant of
the modelled heap. -/
def sortedByRecencyB : List FileInfo → Bool
  | [] => true
  | [_] => true
  | f :: g :: rest => decide (g.accessed ≤ f.accessed) && sortedByRecencyB (g :: rest)

/-- Well-formedness of a scan state: the aggregate counter equals the true
total size and the heap list is sorted most-recent-first. -/
abbrev wf (st : SelState) : Prop :=
  st.aggregate_heap_file_size = heapSize st.files_to_delete ∧
    sortedByRecencyB st.files_to_delete = true

/-- Near-minimal cover bound of the spec: when the candidate set is
non-empty, removing its most recently accessed member would not leave it
above the deletion target. -/
def cover_bound (max_n_bytes_to_delete : Nat) (st : SelState) : Bool :=
  match st.files_to_delete with
  | [] => true
  | top :: _ =>
    decide (st.aggregate_heap_file_size - top.size ≤ max_n_bytes_to_delete)

/-! ## Helper lemmas about the heap model -/

theorem heapSize_heapPush (f : FileInfo) :
    ∀ l, heapSize (heapPush f l) = f.size + heapSize l := by
  intro l
  induction l with
  | nil => rfl
  | cons g gs ih =>
    unfold heapPush
    by_cases h : g.accessed ≤ f.accessed
    · rw [if_pos h]
      rfl
    · rw [if_neg h]
      simp only [heapSize, ih]
      omega

theorem heapPush_ne_nil (f : FileInfo) : ∀ l, heapPush f l ≠ [] := by
  intro l
  cases l with
  | nil => simp [heapPush]
  | cons g gs =>
    unfold heapPush
    split <;> simp

theorem mem_heapPush {x f : FileInfo} :
    ∀ {l : List FileInfo}, x ∈ heapPush f l → x = f ∨ x ∈ l := by
  intro l
  induction l with
  | nil =>
    intro h
    exact Or.inl (by simpa [heapPush] using h)
  | cons g gs ih =>
    intro h
    unfold heapPush at h
    by_cases hle : g.accessed ≤ f.accessed
    · rw [if_pos hle] at h
      rcases List.mem_cons.mp h with rfl | h2
      · exact Or.inl rfl
      · exact Or.inr h2
    · rw [if_neg hle] at h
      rcases List.mem_cons.mp h with rfl | h2
      · exact Or.inr (List.mem_cons_self _ _)
      · rcases ih h2 with rfl | h3
        · exact Or.inl rfl
        · exact Or.inr (List.mem_cons_of_mem _ h3)

theorem sortedB_cons_cons {f g : FileInfo} {l : List FileInfo} :
    sortedByRecencyB (f :: g :: l) = true ↔
      g.accessed ≤ f.accessed ∧ sortedByRecencyB (g :: l) = true := by
  simp [sortedByRecencyB]

theorem sortedB_tail {f : FileInfo} {l : List FileInfo}
    (h : sortedByRecencyB (f :: l) = true) : sortedByRecencyB l = true := by
  cases l with
  | nil => rfl
  | cons g gs => exact (sortedB_cons_cons.mp h).2

theorem sortedB_head_le :
    ∀ (l : List FileInfo) (f : FileInfo), sortedByRecencyB (f :: l) = true →
      ∀ g ∈ l, g.accessed ≤ f.accessed := by
  intro l
  induction l with
  | nil =>
    intro f _ g hg
    cases hg
  | cons x xs ih =>
    intro f h g hg
    have hx := (sortedB_cons_cons.mp h).1
    have hxs := (sortedB_cons_cons.mp h).2
    rcases List.mem_cons.mp hg with rfl | hg2
    · exact hx
    · exact le_trans (ih x hxs g hg2) hx

theorem sortedB_head_max {l : List FileInfo} (hs : sortedByRecencyB l = true) :
    ∀ top ∈ l.head?, ∀ f ∈ l, f.accessed ≤ top.accessed := by
  cases l with
  | nil =>
    intro top htop
    simp at htop
  | cons x xs =>
    intro top htop f hf
    have hx : x = top := by simpa using htop
    subst hx
    rcases List.mem_cons.mp hf with rfl | hf2
    · exact le_refl _
    · exact sortedB_head_le xs x hs f hf2

theorem sortedB_heapPush (f : FileInfo) :
    ∀ l, sortedByRecencyB l = true → sortedByRecencyB (heapPush f l) = true := by
  intro l
  induction l with
  | nil => intro _; rfl
  | cons g gs ih =>
    intro h
    unfold heapPush
    by_cases hle : g.accessed ≤ f.accessed
    · rw [if_pos hle]
      exact sortedB_cons_cons.mpr ⟨hle, h⟩
    · rw [if_neg hle]
      have hfg : f.accessed ≤ g.accessed := le_of_not_le hle
      have hgs := sortedB_tail h
      have ihp := ih hgs
      cases gs with
      | nil =>
        show sortedByRecencyB (g :: [f]) = true
        exact sortedB_cons_cons.mpr ⟨hfg, rfl⟩
      | cons g2 gs2 =>
        by_cases hle2 : g2.accessed ≤ f.accessed
        · unfold heapPush
          rw [if_pos hle2]
          unfold heapPush at ihp
          rw [if_pos hle2] at ihp
          exact sortedB_cons_cons.mpr ⟨hfg, ihp⟩
        · unfold heapPush
          rw [if_neg hle2]
          unfold heapPush at ihp
          rw [if_neg hle2] at ihp
          exact sortedB_cons_cons.mpr ⟨(sortedB_cons_cons.mp h).1, ihp⟩

theorem sortedB_append_right :
    ∀ (t l : List FileInfo), sortedByRecencyB (t ++ l) = true →
      sortedByRecencyB l = true := by
  intro t
  induction t with
  | nil => intro l h; exact h
  | cons x xs ih => intro l h; exact ih l (sortedB_tail h)

theorem sortedB_suffix {l m : List FileInfo} (hs : m <:+ l)
    (hl : sortedByRecencyB l = true) : sortedByRecencyB m = true := by
  obtain ⟨t, rfl⟩ := hs
  exact sortedB_append_right t m hl

/-! ## Helper lemmas about the eviction loop and admission -/

theorem evict_loop_spec (max_n : Nat) :
    ∀ (l : List FileInfo) (agg : Nat), agg = heapSize l →
      ∀ hp sp, evict_loop max_n l agg = some (hp, sp) →
        sp = heapSize hp ∧ hp ≠ [] ∧ hp <:+ l ∧
          ∀ top ∈ hp.head?, sp - top.size ≤ max_n := by
  intro l
  induction l with
  | nil =>
    intro agg _ hp sp he
    simp [evict_loop] at he
  | cons f rest ih =>
    intro agg hagg hp sp he
    unfold evict_loop at he
    by_cases hc : agg - f.size > max_n
    · rw [if_pos hc] at he
      have hsz : agg - f.size = heapSize rest := by
        rw [hagg]; simp [heapSize]
      have hrec := ih (agg - f.size) hsz hp sp he
      exact ⟨hrec.1, hrec.2.1, hrec.2.2.1.trans (List.suffix_cons f rest), hrec.2.2.2⟩
    · rw [if_neg hc] at he
      obtain ⟨rfl, rfl⟩ : f :: rest = hp ∧ agg = sp := by simpa using he
      refine ⟨hagg, by simp, List.suffix_refl _, ?_⟩
      intro top htop
      obtain rfl : f = top := by simpa using htop
      omega

theorem evict_loop_suffix (max_n : Nat) :
    ∀ (l : List FileInfo) (agg : Nat) (hp : List FileInfo) (sp : Nat),
      evict_loop max_n l agg = some (hp, sp) → hp <:+ l := by
  intro l
  induction l with
  | nil =>
    intro agg hp sp he
    simp [evict_loop] at he
  | cons f rest ih =>
    intro agg hp sp he
    unfold evict_loop at he
    by_cases hc : agg - f.size > max_n
    · rw [if_pos hc] at he
      exact (ih _ _ _ he).trans (List.suffix_cons f rest)
    · rw [if_neg hc] at he
      obtain ⟨rfl, rfl⟩ : f :: rest = hp ∧ agg = sp := by simpa using he
      exact List.suffix_refl _

theorem evict_loop_isSome (max_n : Nat) :
    ∀ (l : List FileInfo) (agg : Nat), agg = heapSize l → l ≠ [] →
      ∃ p, evict_loop max_n l agg = some p := by
  intro l
  induction l with
  | nil =>
    intro agg _ hne
    exact absurd rfl hne
  | cons f rest ih =>
    intro agg hagg _
    unfold evict_loop
    by_cases hc : agg - f.size > max_n
    · rw [if_pos hc]
      have hsz : agg - f.size = heapSize rest := by
        rw [hagg]; simp [heapSize]
      have hrest : rest ≠ [] := by
        intro hnil
        rw [hnil] at hsz
        simp [heapSize] at hsz
        omega
      exact ih (agg - f.size) hsz hrest
    · rw [if_neg hc]
      exact ⟨(f :: rest, agg), rfl⟩

theorem admit_file_eq {max_n : Nat} {st : SelState} {file : FileInfo} {st2 : SelState}
    (h : admit_file max_n st file = some st2) :
    evict_loop max_n (heapPush file st.files_to_delete)
      (st.aggregate_heap_file_size + file.size) =
      some (st2.files_to_delete, st2.aggregate_heap_file_size) := by
  unfold admit_file at h
  obtain ⟨⟨hp, sp⟩, he2, rfl⟩ := Option.map_eq_some'.mp h
  exact he2

theorem admit_file_isSome (max_n : Nat) {st : SelState} (file : FileInfo)
    (hwf : wf st) : ∃ st2, admit_file max_n st file = some st2 := by
  have hagg : st.aggregate_heap_file_size + file.size =
      heapSize (heapPush file st.files_to_delete) := by
    rw [heapSize_heapPush, hwf.1]
    omega
  obtain ⟨⟨hp, sp⟩, hep⟩ :=
    evict_loop_isSome max_n _ _ hagg (heapPush_ne_nil file st.files_to_delete)
  exact ⟨⟨hp, sp⟩, by unfold admit_file; rw [hep]; rfl⟩

theorem admit_file_spec {max_n : Nat} {st : SelState} {file : FileInfo} {st2 : SelState}
    (hwf : wf st) (h : admit_file max_n st file = some st2) :
    wf st2 ∧ st2.files_to_delete ≠ [] ∧
      st2.files_to_delete <:+ heapPush file st.files_to_delete ∧
      cover_bound max_n st2 = true := by
  have he := admit_file_eq h
  have hagg : st.aggregate_heap_file_size + file.size =
      heapSize (heapPush file st.files_to_delete) := by
    rw [heapSize_heapPush, hwf.1]
    omega
  have hspec := evict_loop_spec max_n _ _ hagg _ _ he
  have hsorted : sortedByRecencyB st2.files_to_delete = true :=
    sortedB_suffix hspec.2.2.1 (sortedB_heapPush file _ hwf.2)
  refine ⟨⟨hspec.1, hsorted⟩, hspec.2.1, hspec.2.2.1, ?_⟩
  rcases hcons : st2.files_to_delete with _ | ⟨top, rest⟩
  · exact absurd hcons hspec.2.1
  · have htop := hspec.2.2.2 top (by rw [hcons]; simp)
    unfold cover_bound
    rw [hcons]
    simpa using htop

/-! ## Helper lemmas about one scan step and the whole scan -/

theorem scan_step_cases {older : Int} {max_n : Nat} {st st2 : SelState} {e : Entry}
    (h : scan_step older max_n st e = some st2) :
    st2 = st ∨ ∃ a size path, e = .item true (some a) size path ∧ a < older ∧
      admit_file max_n st ⟨a, size, path⟩ = some st2 := by
  cases e with
  | walkErr => exact Or.inl (Option.some.inj h).symm
  | metaErr => exact Or.inl (Option.some.inj h).symm
  | item is_file accessed size path =>
    cases is_file with
    | false => exact Or.inl (Option.some.inj h).symm
    | true =>
      cases accessed with
      | none => exact Option.noConfusion h
      | some a =>
        simp only [scan_step] at h
        by_cases hao : a < older
        · rw [if_pos hao] at h
          by_cases hagg : st.aggregate_heap_file_size < max_n
          · rw [if_pos hagg] at h
            exact Or.inr ⟨a, size, path, rfl, hao, h⟩
          · rw [if_neg hagg] at h
            rcases hh : st.files_to_delete.head? with _ | top
            · rw [hh] at h
              exact Option.noConfusion h
            · rw [hh] at h
              have h2 : (if a ≤ top.accessed then
                  admit_file max_n st ⟨a, size, path⟩ else some st) = some st2 := h
              by_cases hat : a ≤ top.accessed
              · rw [if_pos hat] at h2
                exact Or.inr ⟨a, size, path, rfl, hao, h2⟩
              · rw [if_neg hat] at h2
                exact Or.inl (Option.some.inj h2).symm
        · rw [if_neg hao] at h
          exact Or.inl (Option.some.inj h).symm

theorem scan_step_item_insert {older : Int} {max_n : Nat} {st : SelState}
    {a : Int} (size path : Nat) (hao : a < older)
    (hadm : admits max_n st a = true) :
    scan_step older max_n st (.item true (some a) size path) =
      admit_file max_n st ⟨a, size, path⟩ := by
  simp only [scan_step, if_pos hao]
  by_cases hagg : st.aggregate_heap_file_size < max_n
  · rw [if_pos hagg]
  · rw [if_neg hagg]
    unfold admits at hadm
    rcases hh : st.files_to_delete.head? with _ | top
    · rw [hh] at hadm
      simp [hagg] at hadm
    · rw [hh] at hadm
      simp only [hagg, decide_False, Bool.false_or, decide_eq_true_eq] at hadm
      show (if a ≤ top.accessed then admit_file max_n st ⟨a, size, path⟩
        else some st) = admit_file max_n st ⟨a, size, path⟩
      rw [if_pos hadm]

theorem scan_step_item_skip {older : Int} {max_n : Nat} {st : SelState}
    {a : Int} (size path : Nat)
    (hwf : wf st) (hpos : 0 < max_n) (hao : a < older)
    (hadm : admits max_n st a = false) :
    scan_step older max_n st (.item true (some a) size path) = some st := by
  unfold admits at hadm
  rcases hh : st.files_to_delete.head? with _ | top
  · rw [hh] at hadm
    simp only [Bool.or_false, decide_eq_false_iff_not, not_lt] at hadm
    have hnil : st.files_to_delete = [] := by
      cases hc : st.files_to_delete with
      | nil => rfl
      | cons x xs => rw [hc] at hh; exact Option.noConfusion hh
    rw [hwf.1, hnil] at hadm
    simp [heapSize] at hadm
    omega
  · rw [hh] at hadm
    simp only [Bool.or_eq_false_iff, decide_eq_false_iff_not, not_lt] at hadm
    simp only [scan_step, if_pos hao]
    rw [if_neg (not_lt.mpr hadm.1)]
    rw [hh]
    show (if a ≤ top.accessed then admit_file max_n st ⟨a, size, path⟩
      else some st) = some st
    rw [if_neg hadm.2]

theorem scan_step_ineligible {older : Int} {max_n : Nat} {st st2 : SelState} {e : Entry}
    (he : eligible older e = false)
    (h : scan_step older max_n st e = some st2) : st2 = st := by
  rcases scan_step_cases h with rfl | ⟨a, size, path, rfl, hao, _⟩
  · rfl
  · simp only [eligible, decide_eq_false_iff_not] at he
    exact absurd hao he

theorem scan_step_mem_floor {older : Int} {max_n : Nat} {st st2 : SelState} {e : Entry}
    (hmem : ∀ f ∈ st.files_to_delete, f.accessed < older)
    (h : scan_step older max_n st e = some st2) :
    ∀ f ∈ st2.files_to_delete, f.accessed < older := by
  rcases scan_step_cases h with rfl | ⟨a, size, path, rfl, hao, hadm⟩
  · exact hmem
  · intro f hf
    have hsuf := evict_loop_suffix max_n _ _ _ _ (admit_file_eq hadm)
    rcases mem_heapPush (hsuf.subset hf) with rfl | hf3
    · exact hao
    · exact hmem f hf3

theorem scan_mem_floor {older : Int} {max_n : Nat} :
    ∀ {es : List Entry} {st st2 : SelState},
      (∀ f ∈ st.files_to_delete, f.accessed < older) →
      scan older max_n st es = some st2 →
      ∀ f ∈ st2.files_to_delete, f.accessed < older := by
  intro es
  induction es with
  | nil =>
    intro st st2 hmem h
    obtain rfl := Option.some.inj h
    exact hmem
  | cons e es2 ih =>
    intro st st2 hmem h
    unfold scan at h
    rcases hstep : scan_step older max_n st e with _ | stm
    · rw [hstep] at h
      exact Option.noConfusion h
    · rw [hstep] at h
      exact ih (scan_step_mem_floor hmem hstep) h

theorem scan_ineligible {older : Int} {max_n : Nat} :
    ∀ {es : List Entry} {st st2 : SelState},
      (∀ e ∈ es, eligible older e = false) →
      scan older max_n st es = some st2 → st2 = st := by
  intro es
  induction es with
  | nil =>
    intro st st2 _ h
    exact (Option.some.inj h).symm
  | cons e es2 ih =>
    intro st st2 hall h
    unfold scan at h
    rcases hstep : scan_step older max_n st e with _ | stm
    · rw [hstep] at h
      exact Option.noConfusion h
    · rw [hstep] at h
      have hstm : stm = st :=
        scan_step_ineligible (hall e (List.mem_cons_self _ _)) hstep
      rw [ih (fun x hx => hall x (List.mem_cons_of_mem _ hx)) h, hstm]

/-! ## Helper lemmas about reconciliation, arithmetic and the drain -/

theorem reconcile_suffix (req : Nat) :
    ∀ (l : List FileInfo) (agg : Nat), (reconcile req l agg).1 <:+ l := by
  intro l
  induction l with
  | nil => intro agg; exact List.suffix_refl _
  | cons f rest ih =>
    intro agg
    unfold reconcile
    by_cases hc : agg - f.size > req
    · rw [if_pos hc]
      exact (ih (agg - f.size)).trans (List.suffix_cons f rest)
    · rw [if_neg hc]

theorem reconcile_stop (req : Nat) :
    ∀ (l : List FileInfo) (agg : Nat),
      ∀ top ∈ (reconcile req l agg).1.head?,
        ¬((reconcile req l agg).2 - top.size > req) := by
  intro l
  induction l with
  | nil =>
    intro agg top htop
    simp [reconcile] at htop
  | cons f rest ih =>
    intro agg
    unfold reconcile
    by_cases hc : agg - f.size > req
    · rw [if_pos hc]
      exact ih (agg - f.size)
    · rw [if_neg hc]
      intro top htop
      obtain rfl : f = top := by simpa using htop
      exact hc

theorem wrap64_eq_self {z : Int} (h1 : -(2 ^ 63) ≤ z) (h2 : z < 2 ^ 63) :
    wrap64 z = z := by
  have p63 : (2 : Int) ^ 63 = 9223372036854775808 := by norm_num
  have p64 : (2 : Int) ^ 64 = 18446744073709551616 := by norm_num
  unfold wrap64
  rw [p63] at h1 h2
  rw [p63, p64]
  rw [Int.emod_eq_of_lt (by omega) (by omega)]
  omega

theorem drain_dry (verbose : Bool) (remove_ok : Nat → Bool) :
    ∀ (fs : List FileInfo) (acc : Nat),
      (drain_exec true verbose remove_ok fs acc).1 = acc + heapSize fs := by
  intro fs
  induction fs with
  | nil =>
    intro acc
    simp [drain_exec, heapSize]
  | cons f rest ih =>
    intro acc
    unfold drain_exec
    rw [if_pos rfl]
    rw [ih (acc + f.size)]
    simp [heapSize]
    omega

theorem drain_exec_cons_live (verbose : Bool) (remove_ok : Nat → Bool)
    (f : FileInfo) (rest : List FileInfo) (acc : Nat) :
    drain_exec false verbose remove_ok (f :: rest) acc =
      ((drain_exec false verbose remove_ok rest
          (if remove_ok f.path && verbose then acc + f.size else acc)).1,
        f.path :: (drain_exec false verbose remove_ok rest
          (if remove_ok f.path && verbose then acc + f.size else acc)).2) := rfl

theorem drain_live_bytes (remove_ok : Nat → Bool) :
    ∀ (fs : List FileInfo) (acc : Nat),
      (drain_exec false true remove_ok fs acc).1 =
        acc + heapSize (fs.filter fun f => remove_ok f.path) := by
  intro fs
  induction fs with
  | nil =>
    intro acc
    simp [drain_exec, heapSize]
  | cons f rest ih =>
    intro acc
    rw [drain_exec_cons_live]
    by_cases hok : remove_ok f.path = true
    · simp only [List.filter_cons, hok, Bool.and_self, if_true]
      rw [ih (acc + f.size)]
      simp only [heapSize]
      omega
    · rw [Bool.not_eq_true] at hok
      simp only [List.filter_cons, hok, Bool.false_and, if_false]
      exact ih acc

theorem drain_live_attempted (verbose : Bool) (remove_ok : Nat → Bool) :
    ∀ (fs : List FileInfo) (acc : Nat),
      (drain_exec false verbose remove_ok fs acc).2 = fs.map fun f => f.path := by
  intro fs
  induction fs with
  | nil =>
    intro acc
    simp [drain_exec]
  | cons f rest ih =>
    intro acc
    rw [drain_exec_cons_live]
    simp only [List.map_cons]
    rw [ih]

/-! ## Claim theorems -/

/-- C1: during the scan, an eligible (age-filtered) file is admitted into the
candidate set if and only if the set's current total size is below the
deletion target or the file's access time is no later than that of the
current most-recently-accessed member; each admission is immediately
followed by the eviction loop, which pops most-recently-accessed members
(a suffix of the pushed heap is kept) while
`totalSize - peekMostRecent().size > requiredBytes`, and that loop always
leaves at least one member in the set. -/
theorem claim_C1 (older : Int) (max_n : Nat) (st : SelState) (a : Int) (size path : Nat)
    (hwf : wf st) (hpos : 0 < max_n) (hao : a < older) :
    (admits max_n st a = true →
        ∃ st2, scan_step older max_n st (.item true (some a) size path) = some st2 ∧
          admit_file max_n st ⟨a, size, path⟩ = some st2 ∧
          st2.files_to_delete ≠ [] ∧
          st2.files_to_delete <:+ heapPush ⟨a, size, path⟩ st.files_to_delete ∧
          cover_bound max_n st2 = true) ∧
      (admits max_n st a = false →
        scan_step older max_n st (.item true (some a) size path) = some st) := by
  constructor
  · intro hadm
    obtain ⟨st2, hst2⟩ := admit_file_isSome max_n ⟨a, size, path⟩ hwf
    have hs := admit_file_spec hwf hst2
    exact ⟨st2, by rw [scan_step_item_insert size path hao hadm]; exact hst2,
      hst2, hs.2.1, hs.2.2.1, hs.2.2.2⟩
  · intro hadm
    exact scan_step_item_skip size path hwf hpos hao hadm

theorem claim_C1_witness :
    (admits 10 ⟨[], 0⟩ 50 = true →
        ∃ st2, scan_step 100 10 ⟨[], 0⟩ (.item true (some 50) 3 7) = some st2 ∧
          admit_file 10 ⟨[], 0⟩ ⟨50, 3, 7⟩ = some st2 ∧
          st2.files_to_delete ≠ [] ∧
          st2.files_to_delete <:+ heapPush ⟨50, 3, 7⟩ (SelState.mk [] 0).files_to_delete ∧
          cover_bound 10 st2 = true) ∧
      (admits 10 ⟨[], 0⟩ 50 = false →
        scan_step 100 10 ⟨[], 0⟩ (.item true (some 50) 3 7) = some ⟨[], 0⟩) :=
  claim_C1 100 10 ⟨[], 0⟩ 50 3 7 (by decide) (by decide) (by decide)

/-- C2: every file in the final candidate set was last accessed before the
age floor; an empty input yields the empty set, and if no entry is eligible
(old enough) the resulting set is empty no matter how large the deficit is. -/
theorem claim_C2 (older : Int) (max_n : Nat) (es : List Entry) (st2 : SelState)
    (h : scan older max_n ⟨[], 0⟩ es = some st2) :
    (∀ f ∈ st2.files_to_delete, f.accessed < older) ∧
      (es = [] → st2 = ⟨[], 0⟩) ∧
      ((∀ e ∈ es, eligible older e = false) → st2.files_to_delete = []) := by
  refine ⟨scan_mem_floor (by simp) h, ?_, ?_⟩
  · rintro rfl
    exact (Option.some.inj h).symm
  · intro hall
    rw [scan_ineligible hall h]

theorem claim_C2_witness :
    (∀ f ∈ (SelState.mk [⟨50, 3, 7⟩] 3).files_to_delete, f.accessed < 100) ∧
      ([Entry.item true (some 50) 3 7] = ([] : List Entry) →
        (⟨[⟨50, 3, 7⟩], 3⟩ : SelState) = ⟨[], 0⟩) ∧
      ((∀ e ∈ [Entry.item true (some 50) 3 7], eligible 100 e = false) →
        (SelState.mk [⟨50, 3, 7⟩] 3).files_to_delete = []) :=
  claim_C2 100 10 [Entry.item true (some 50) 3 7] ⟨[⟨50, 3, 7⟩], 3⟩ (by decide)

/-- C3 (refuted): the near-minimal cover bound does not hold after every
individual insertion or eviction step.  On the concrete input below
(deficit 10, age floor 100) the scan passes through the intermediate state
with heap `[⟨60,8,2⟩, ⟨50,20,3⟩]` and aggregate 28 right after popping
`⟨70,5,1⟩`, where `28 - 8 = 20 > 10` violates the bound; the bound is
restored only when the eviction loop finishes. -/
theorem claim_C3_counterexample :
    (⟨[⟨60, 8, 2⟩, ⟨50, 20, 3⟩], 28⟩ : SelState) ∈
        scan_states 100 10 ⟨[], 0⟩
          [.item true (some 70) 5 1, .item true (some 60) 8 2,
            .item true (some 50) 20 3] ∧
      cover_bound 10 ⟨[⟨60, 8, 2⟩, ⟨50, 20, 3⟩], 28⟩ = false := by decide

/-- C3 (amended): the near-minimal cover bound
`totalSize - mostRecentMember.size <= requiredBytes` (with the most recent
member being the one with the largest access time) holds after every fully
processed entry, i.e. after each insertion together with its complete
eviction loop, and hence at every point of the scan between entries —
though not in the middle of an admission, see the counterexample. -/
theorem claim_C3_amended (older : Int) (max_n : Nat) (st st2 : SelState) (e : Entry)
    (hwf : wf st) (hinv : cover_bound max_n st = true)
    (h : scan_step older max_n st e = some st2) :
    cover_bound max_n st2 = true ∧ wf st2 ∧
      ∀ top ∈ st2.files_to_delete.head?,
        ∀ f ∈ st2.files_to_delete, f.accessed ≤ top.accessed := by
  rcases scan_step_cases h with rfl | ⟨a, size, path, rfl, hao, hadm⟩
  · exact ⟨hinv, hwf, sortedB_head_max hwf.2⟩
  · have hs := admit_file_spec hwf hadm
    exact ⟨hs.2.2.2, hs.1, sortedB_head_max hs.1.2⟩

theorem claim_C3_witness :
    cover_bound 10 ⟨[⟨50, 3, 7⟩], 3⟩ = true ∧ wf (⟨[⟨50, 3, 7⟩], 3⟩ : SelState) ∧
      ∀ top ∈ (SelState.mk [⟨50, 3, 7⟩] 3).files_to_delete.head?,
        ∀ f ∈ (SelState.mk [⟨50, 3, 7⟩] 3).files_to_delete,
          f.accessed ≤ top.accessed :=
  claim_C3_amended 100 10 ⟨[], 0⟩ ⟨[⟨50, 3, 7⟩], 3⟩ (.item true (some 50) 3 7)
    (by decide) (by decide) (by decide)

/-- C4: after the second probe, if the recomputed deficit is not positive
the whole `if n_bytes_to_delete > 0` block is skipped, so the set is simply
dropped and nothing is deleted; otherwise the reconciliation loop pops the
most recently accessed member while
`aggregate_heap_file_size - peek().size > n_bytes_to_delete` (keeping a
suffix of the scanned heap) and stops as soon as that condition fails. -/
theorem claim_C4 (target_available_space avail2 : Nat) (st : SelState) :
    (n_bytes_to_delete target_available_space avail2 ≤ 0 →
        final_candidates target_available_space avail2 st = []) ∧
      (0 < n_bytes_to_delete target_available_space avail2 →
        final_candidates target_available_space avail2 st =
            (reconcile (n_bytes_to_delete target_available_space avail2).toNat
              st.files_to_delete st.aggregate_heap_file_size).1 ∧
          final_candidates target_available_space avail2 st <:+ st.files_to_delete ∧
          ∀ top ∈ (final_candidates target_available_space avail2 st).head?,
            ¬((reconcile (n_bytes_to_delete target_available_space avail2).toNat
                st.files_to_delete st.aggregate_heap_file_size).2 - top.size >
              (n_bytes_to_delete target_available_space avail2).toNat)) := by
  constructor
  · intro hle
    unfold final_candidates
    rw [if_neg (not_lt.mpr hle)]
  · intro hgt
    unfold final_candidates
    rw [if_pos hgt]
    exact ⟨rfl, reconcile_suffix _ _ _, reconcile_stop _ _ _⟩

theorem claim_C4_witness :
    0 < n_bytes_to_delete 100 40 ∧
      (final_candidates 100 40 ⟨[⟨90, 30, 1⟩, ⟨80, 40, 2⟩, ⟨70, 50, 3⟩], 120⟩ =
          (reconcile (n_bytes_to_delete 100 40).toNat
            [⟨90, 30, 1⟩, ⟨80, 40, 2⟩, ⟨70, 50, 3⟩] 120).1 ∧
        final_candidates 100 40 ⟨[⟨90, 30, 1⟩, ⟨80, 40, 2⟩, ⟨70, 50, 3⟩], 120⟩ <:+
          [⟨90, 30, 1⟩, ⟨80, 40, 2⟩, ⟨70, 50, 3⟩] ∧
        ∀ top ∈ (final_candidates 100 40
            ⟨[⟨90, 30, 1⟩, ⟨80, 40, 2⟩, ⟨70, 50, 3⟩], 120⟩).head?,
          ¬((reconcile (n_bytes_to_delete 100 40).toNat
              [⟨90, 30, 1⟩, ⟨80, 40, 2⟩, ⟨70, 50, 3⟩] 120).2 - top.size >
            (n_bytes_to_delete 100 40).toNat)) :=
  ⟨by decide, (claim_C4 100 40 ⟨[⟨90, 30, 1⟩, ⟨80, 40, 2⟩, ⟨70, 50, 3⟩], 120⟩).2
    (by decide)⟩

/-- C5: a file that is newer than the current most-recently-accessed member
while the set is already at or over the deletion target is skipped outright:
the scan step returns the state unchanged, so the file is never pushed and
hence never admitted-then-evicted in the same pass. -/
theorem claim_C5 (older : Int) (max_n : Nat) (st : SelState) (a : Int) (size path : Nat)
    (top : FileInfo) (htop : st.files_to_delete.head? = some top)
    (hnew : top.accessed < a)
    (hfull : max_n ≤ st.aggregate_heap_file_size) :
    scan_step older max_n st (.item true (some a) size path) = some st := by
  by_cases hao : a < older
  · simp only [scan_step, if_pos hao]
    rw [if_neg (not_lt.mpr hfull), htop]
    show (if a ≤ top.accessed then admit_file max_n st ⟨a, size, path⟩
      else some st) = some st
    rw [if_neg (not_le.mpr hnew)]
  · simp only [scan_step, if_neg hao]

theorem claim_C5_witness :
    scan_step 100 2 ⟨[⟨50, 3, 7⟩], 3⟩ (.item true (some 60) 4 8) =
      some ⟨[⟨50, 3, 7⟩], 3⟩ :=
  claim_C5 100 2 ⟨[⟨50, 3, 7⟩], 3⟩ 60 4 8 ⟨50, 3, 7⟩ (by decide) (by decide)
    (by decide)

/-- C6 (refuted): a regular file whose metadata is readable but whose
last-access time cannot be read does abort the run: the source calls
`metadata.accessed().unwrap()`, modelled by the scan step returning `none`
(a panic) on `accessed = none`, so the run does not silently skip every
file whose metadata, including its access time, cannot be read. -/
theorem claim_C6_counterexample :
    scan_step 0 5 ⟨[], 0⟩ (.item true none 1 0) = none ∧
      scan 0 5 ⟨[], 0⟩ [.item true none 1 0] = none := by decide

/-- C6 (amended): an entry whose `entry.metadata()` call fails (and likewise
a walkdir error) is silently skipped — the scan step leaves the state
untouched and does not abort; only an unreadable last-access time on an
otherwise readable regular file panics (see the counterexample). -/
theorem claim_C6_amended (older : Int) (max_n : Nat) (st : SelState) :
    scan_step older max_n st .metaErr = some st ∧
      scan_step older max_n st .walkErr = some st :=
  ⟨rfl, rfl⟩

/-- C7: in dry-run the reported byte total is the sum of all drained files'
sizes; in live verbose mode (the mode in which the total is reported) it is
exactly the sum of the sizes of the successfully deleted files, so a failed
deletion contributes nothing; and deletion is attempted on every drained
file in order, so a failure never aborts the remaining drain. -/
theorem claim_C7 (fs : List FileInfo) (remove_ok : Nat → Bool) (verbose : Bool) :
    (drain_exec true verbose remove_ok fs 0).1 = heapSize fs ∧
      (drain_exec false true remove_ok fs 0).1 =
        heapSize (fs.filter fun f => remove_ok f.path) ∧
      (drain_exec false verbose remove_ok fs 0).2 = fs.map fun f => f.path := by
  refine ⟨?_, ?_, drain_live_attempted verbose remove_ok fs 0⟩
  · have := drain_dry verbose remove_ok fs 0
    simpa using this
  · have := drain_live_bytes remove_ok fs 0
    simpa using this

/-- C8 (refuted): the deficit recomputation after the second probe is not an
unsigned subtraction: the source casts both `u64` probes to `i64` and
subtracts with signed semantics.  With `target = 100` and second-probe
available space `150` (space increased during the scan) the computed
deficit is `-50` — not the unsigned wrap `(100 - 150) mod 2^64` the claim
predicts — the `> 0` guard fails, and nothing is deleted. -/
theorem claim_C8_counterexample :
    n_bytes_to_delete 100 150 = -50 ∧
      n_bytes_to_delete 100 150 ≠ (100 - 150 : Int) % 2 ^ 64 ∧
      ¬0 < n_bytes_to_delete 100 150 ∧
      final_candidates 100 150 ⟨[⟨5, 40, 1⟩], 40⟩ = [] := by decide

/-- C8 (amended): the deficit recomputation uses signed 64-bit subtraction
of the two `u64` probes cast to `i64`; for values below `2^63` it computes
the exact integer difference, so when available space increased past the
target between the probes the deficit is negative (no modulo-`2^64` wrap)
and the positive-deficit guard makes the run delete nothing. -/
theorem claim_C8_amended (target_available_space avail2 : Nat)
    (h1 : target_available_space < 2 ^ 63) (h2 : avail2 < 2 ^ 63) :
    n_bytes_to_delete target_available_space avail2 =
        (target_available_space : Int) - (avail2 : Int) ∧
      (target_available_space ≤ avail2 →
        ∀ st, final_candidates target_available_space avail2 st = []) := by
  have p63 : (2 : Int) ^ 63 = 9223372036854775808 := by norm_num
  have h1i : (target_available_space : Int) < 2 ^ 63 := by exact_mod_cast h1
  have h2i : (avail2 : Int) < 2 ^ 63 := by exact_mod_cast h2
  have ht : (0 : Int) ≤ target_available_space := Int.natCast_nonneg _
  have hv : (0 : Int) ≤ avail2 := Int.natCast_nonneg _
  have e1 : wrap64 target_available_space = target_available_space :=
    wrap64_eq_self (by rw [p63]; omega) h1i
  have e2 : wrap64 avail2 = avail2 :=
    wrap64_eq_self (by rw [p63]; omega) h2i
  have e3 : wrap64 ((target_available_space : Int) - avail2) =
      (target_available_space : Int) - avail2 := by
    refine wrap64_eq_self ?_ ?_ <;> rw [p63] at h1i h2i ⊢ <;> omega
  have hmain : n_bytes_to_delete target_available_space avail2 =
      (target_available_space : Int) - avail2 := by
    unfold n_bytes_to_delete
    rw [e1, e2, e3]
  refine ⟨hmain, ?_⟩
  intro hta st
  have htai : (target_available_space : Int) ≤ avail2 := by exact_mod_cast hta
  unfold final_candidates
  rw [if_neg]
  rw [hmain]
  omega

theorem claim_C8_witness :
    n_bytes_to_delete 100 150 = (100 : Int) - (150 : Int) ∧
      ((100 : Nat) ≤ 150 → ∀ st, final_candidates 100 150 st = []) :=
  claim_C8_amended 100 150 (by norm_num) (by norm_num)

/-- C9: under the scan invariants (the aggregate equals the true heap size,
the heap is sorted) and a positive deletion target, a scan step on any
entry with readable access time never returns `none`: both
`peek().unwrap()` sites — the second admission disjunct and the eviction
loop — are reached only with a non-empty heap, because an empty heap forces
a zero aggregate, which is below the positive target. -/
theorem claim_C9 (older : Int) (max_n : Nat) (st : SelState) (e : Entry)
    (hwf : wf st) (hpos : 0 < max_n) (hread : accessed_readable e = true) :
    ∃ st2, scan_step older max_n st e = some st2 := by
  cases e with
  | walkErr => exact ⟨st, rfl⟩
  | metaErr => exact ⟨st, rfl⟩
  | item is_file accessed size path =>
    cases is_file with
    | false => exact ⟨st, rfl⟩
    | true =>
      cases accessed with
      | none => simp [accessed_readable] at hread
      | some a =>
        by_cases hao : a < older
        · cases hadm : admits max_n st a with
          | false => exact ⟨st, scan_step_item_skip size path hwf hpos hao hadm⟩
          | true =>
            obtain ⟨st2, hst2⟩ := admit_file_isSome max_n ⟨a, size, path⟩ hwf
            exact ⟨st2, by rw [scan_step_item_insert size path hao hadm]; exact hst2⟩
        · exact ⟨st, by simp only [scan_step, if_neg hao]⟩

theorem claim_C9_witness :
    ∃ st2, scan_step 100 10 ⟨[], 0⟩ (.item true (some 50) 3 7) = some st2 :=
  claim_C9 100 10 ⟨[], 0⟩ (.item true (some 50) 3 7) (by decide) (by decide)
    (by decide)

/-- C10: in live mode the list of paths on which deletion is attempted is
the same whatever the verbose flag (and whatever the accumulator), because
`remove_file(...).is_ok()` is evaluated before `&& args.verbose`; verbose
only gates the printed lines and the byte accumulator. -/
theorem claim_C10 (fs : List FileInfo) (remove_ok : Nat → Bool)
    (v1 v2 : Bool) (acc1 acc2 : Nat) :
    (drain_exec false v1 remove_ok fs acc1).2 =
      (drain_exec false v2 remove_ok fs acc2).2 := by
  rw [drain_live_attempted, drain_live_attempted]

end LruReclaim
